import Mathlib

/-!
Verification of the tag-finder usage-analysis engine (Rust sources under
src/): the text processor (src/text_processor.rs), usage scanner
(src/scanner.rs), class extractor (src/css_parser.rs), directory walker
(src/file_walker.rs), configuration (src/config.rs) and the unused-class
detector (src/unused_detector.rs).

Embedding conventions:
- Rust strings are `List Char` (`Str`); the character domain is treated as
  ASCII, so Rust `char::is_alphanumeric` is `Char.isAlphanum` and
  `char::is_ascii_digit` is `Char.isDigit`.
- A file path is its list of components (`FPath`), as produced by Rust
  `Path::components`; `pathExt` mirrors `Path::extension` on the final
  component and `pathStr` mirrors `to_string_lossy` (components joined
  by a slash).
- Rust `HashMap` accumulation (`entry().or_default().push(v)`) is
  determinized as an insertion-ordered association list (`insertEntry` /
  `bucketFold`); member order inside a bucket is the program's push order.
- Parallel phases (`rayon` `par_iter().map(...).collect()`) preserve input
  order and are embedded as the corresponding sequential maps.
- The regex-driven `find_pattern_usage` of the dynamic-pattern phase is not
  needed by any proved statement; the detector is parameterized over an
  arbitrary `fpu : Str → DynamicPattern → Bool` standing for it, so every
  theorem below holds for the real matcher as a special case.
-/

/-- Rust `String` / `&str`, as a list of (ASCII) characters. -/
abbrev Str := List Char

/-- Rust `PathBuf`, as its list of components (`Path::components`). -/
abbrev FPath := List Str

/-- Index of the last occurrence of `c` in `l`, if any. -/
def lastIdxOfChar (l : Str) (c : Char) : Option Nat :=
  match l.reverse.findIdx? (· == c) with
  | none => none
  | some r => some (l.length - 1 - r)

/-- Rust `Path::extension` on the final component: the part after the last
dot, none when there is no component, no dot, or the only dot is leading
(hidden files such as `.gitignore`). -/
def pathExt (p : FPath) : Option Str :=
  match p.getLast? with
  | none => none
  | some name =>
    match lastIdxOfChar name '.' with
    | none => none
    | some 0 => none
    | some j => some (name.drop (j + 1))

/-- Rust `PathBuf::to_string_lossy`: components joined by a slash. -/
def pathStr : FPath → Str
  | [] => []
  | [c] => c
  | c :: rest => c ++ '/' :: pathStr rest

/-- The identifier-like alphabet of the matcher: Rust
`c.is_alphanumeric() || c == '_' || c == '-'` (ASCII embedding). -/
def isIdentChar (c : Char) : Bool :=
  c.isAlphanum || c == '_' || c == '-'

/-- Splitting a character list at every character satisfying `p`,
keeping empty segments, as Rust `str::split` does. -/
def splitPredChar (p : Char → Bool) : Str → List Str
  | [] => [[]]
  | c :: rest =>
    let r := splitPredChar p rest
    if p c then [] :: r
    else
      match r with
      | t :: ts => (c :: t) :: ts
      | [] => [[c]]

/-- The token split used by `TextProcessor::find_exact_words`
(src/text_processor.rs lines 66-70): split on every non-identifier
character. -/
def splitNonIdent (content : Str) : List Str :=
  splitPredChar (fun c => !(isIdentChar c)) content

/-- `TextProcessor::find_exact_words` (src/text_processor.rs lines 66-70):
some token of the split equals the target word exactly. -/
def find_exact_words (content : Str) (target_word : Str) : Bool :=
  (splitNonIdent content).any (· == target_word)

/-- `FileScanner::contains_special_chars` (src/scanner.rs lines 109-111). -/
def contains_special_chars (word : Str) : Bool :=
  word.any (fun c => !(isIdentChar c))

/-- `Config` (src/config.rs): the `scan` table's three filter-rule lists. -/
structure Config where
  exclude_dirs : List Str
  include_extensions : List Str
  css_extensions : List Str
deriving DecidableEq

/-- `ScanResult` (src/scanner.rs lines 13-18). -/
structure ScanResult where
  css_files : List Str
  other_files : List Str
  is_css_only : Bool
deriving DecidableEq

/-- Rust `str::contains(&str)`: the needle occurs as a contiguous
substring of the haystack. -/
def containsSub (haystack needle : Str) : Bool :=
  needle.isPrefixOf haystack ||
    match haystack with
    | [] => false
    | _ :: rest => containsSub rest needle

/-- The per-file match rule inside `FileScanner::scan` (src/scanner.rs
lines 51-57): plain substring containment for words with special
characters, exact-word-boundary search otherwise. -/
def scanMatch (target_word : Str) (content : Str) : Bool :=
  if contains_special_chars target_word then
    containsSub content target_word
  else
    find_exact_words content target_word

/-- `FileScanner::is_css_file` (src/scanner.rs lines 79-87): configured css
extensions when a config is present, default `css`/`scss` otherwise. -/
def is_css_file (cfg : Option Config) (ext : Option Str) : Bool :=
  match cfg with
  | some c =>
    match ext with
    | some e => c.css_extensions.any (· == e)
    | none => false
  | none =>
    match ext with
    | some e => e == "css".toList || e == "scss".toList
    | none => false

/-- The collected per-file results of `FileScanner::scan` (src/scanner.rs
lines 47-73): for every file whose content matches, its rendered path and
whether it is a css file. -/
def scanHits (cfg : Option Config) (target_word : Str)
    (files : List (FPath × Str)) : List (Str × Bool) :=
  files.filterMap fun pc =>
    if scanMatch target_word pc.2 then
      some (pathStr pc.1, is_css_file cfg (pathExt pc.1))
    else none

/-- `FileScanner::process_scan_results` (src/scanner.rs lines 90-106). -/
def process_scan_results (results : List (Str × Bool)) : ScanResult :=
  let css_files := (results.filter (fun r => r.2)).map (·.1)
  let other_files := (results.filter (fun r => !r.2)).map (·.1)
  { css_files := css_files
    other_files := other_files
    is_css_only := !css_files.isEmpty && other_files.isEmpty }

/-- `FileScanner::scan` (src/scanner.rs lines 41-76). -/
def scan (cfg : Option Config) (target_word : Str)
    (files : List (FPath × Str)) : ScanResult :=
  process_scan_results (scanHits cfg target_word files)

/-- Rust ASCII/Unicode whitespace as far as `str::trim` meets it in this
ASCII embedding. -/
def isWsChar (c : Char) : Bool :=
  c == ' ' || c == '\t' || c == '\n' || c == '\r' || c == '\x0b' || c == '\x0c'

/-- Rust `str::trim`: drop leading and trailing whitespace. -/
def trimChars (s : Str) : Str :=
  ((s.dropWhile isWsChar).reverse.dropWhile isWsChar).reverse

/-- `TextProcessor::is_ignored_line` (src/text_processor.rs lines 217-220):
after trimming, the line is empty or starts with a line or block comment
opener. -/
def is_ignored_line (line : Str) : Bool :=
  let t := trimChars line
  t.isEmpty || t.take 2 == "//".toList || t.take 2 == "/*".toList

/-- Drop one trailing carriage return, as Rust `str::lines` does for the
segments that end right before a newline. -/
def stripCr (l : Str) : Str :=
  match l.getLast? with
  | some '\r' => l.dropLast
  | _ => l

/-- Rust `str::lines`: split at every newline, strip a carriage return at
the end of each terminated segment, and do not produce a final empty
segment after a trailing newline. -/
def linesOf (cs : Str) : List Str :=
  let parts := splitPredChar (fun c => c == '\n') cs
  let init := parts.dropLast.map stripCr
  match parts.getLast? with
  | some [] => init
  | some l => init ++ [l]
  | none => init

/-- All captures of the class regex on one line. The pattern
`\.([a-zA-Z][a-zA-Z0-9_-]*)` (src/css_parser.rs line 43) is applied by
`captures_iter`; because a dot is not an identifier character, no dot can
fall inside a previous match, so the non-overlapping leftmost scan finds a
capture exactly at every dot followed by an ASCII letter, extending over
the maximal identifier run. -/
def extractLine (l : Str) : List Str :=
  (List.range l.length).filterMap fun i =>
    match l.drop i with
    | '.' :: c :: rest =>
      if c.isAlpha then some (c :: rest.takeWhile isIdentChar) else none
    | _ => none

/-- `CssClass` (src/css_parser.rs lines 14-19). -/
structure CssClass where
  name : Str
  file : Str
  line : Nat
deriving DecidableEq

/-- `CssParser::is_valid_class_name` (src/css_parser.rs lines 131-133). -/
def is_valid_class_name (n : Str) : Bool :=
  2 ≤ n.length && !(n.all (·.isDigit))

/-- One file's contribution to extraction: `TextProcessor::process_content`
with the `css_class` pattern over every non-ignored line, keeping the valid
captures as `CssClass` records with 1-based line numbers (src/css_parser.rs
lines 48-63 and 93-119). -/
def classesOfFile (pc : FPath × Str) : List CssClass :=
  let fstr := pathStr pc.1
  (linesOf pc.2).enum.flatMap fun il =>
    if is_ignored_line il.2 then []
    else
      (extractLine il.2).filterMap fun tok =>
        if is_valid_class_name tok then
          some { name := tok, file := fstr, line := il.1 + 1 }
        else none

/-- The extracted class list before deduplication, in file-then-line
order (the sequential loop of `extract_classes` and the order-preserving
parallel `flat_map` of `extract_classes_parallel` agree on it). -/
def rawClasses (files : List (FPath × Str)) : List CssClass :=
  files.flatMap classesOfFile

/-- The `retain`/`HashSet` loop of `CssParser::deduplicate_classes`
(src/css_parser.rs lines 136-142): keep a record iff its (name, file) pair
was not seen before. -/
def dedupGo (seen : List (Str × Str)) : List CssClass → List CssClass
  | [] => []
  | c :: rest =>
    if (c.name, c.file) ∈ seen then dedupGo seen rest
    else c :: dedupGo ((c.name, c.file) :: seen) rest

/-- `CssParser::deduplicate_classes` (src/css_parser.rs lines 136-142). -/
def deduplicate_classes (classes : List CssClass) : List CssClass :=
  dedupGo [] classes

/-- `CssParser::extract_classes` over a given list of (path, content)
pairs: raw extraction followed by (name, file) deduplication. -/
def extract_classes (files : List (FPath × Str)) : List CssClass :=
  deduplicate_classes (rawClasses files)

/-- `Config::is_css_file` (src/config.rs lines 133-139). -/
def config_is_css_file (c : Config) (p : FPath) : Bool :=
  match pathExt p with
  | some e => c.css_extensions.any (· == e)
  | none => false

/-- `UnusedDetector::filter_css_files` (src/unused_detector.rs lines
86-106): configured css extensions when a config is present, the default
`css`/`scss` fallback otherwise. -/
def filter_css_files (cfg : Option Config)
    (files : List (FPath × Str)) : List (FPath × Str) :=
  match cfg with
  | some c => files.filter fun pc => config_is_css_file c pc.1
  | none =>
    files.filter fun pc =>
      match pathExt pc.1 with
      | some e => e == "css".toList || e == "scss".toList
      | none => false

/-- `DynamicPattern` (src/text_processor.rs lines 16-22). `pre`, `suf` and
`patternStr` embed the Rust fields named prefix, suffix and pattern. -/
structure DynamicPattern where
  pre : Str
  suf : Str
  patternStr : Str
  matching_classes : List Str
deriving DecidableEq

/-- Longest common starting run of two character lists. -/
def lcp2 : Str → Str → Str
  | x :: xs, y :: ys => if x = y then x :: lcp2 xs ys else []
  | _, _ => []

/-- The common-prefix loop of `create_dynamic_pattern`
(src/text_processor.rs lines 154-161): the longest run of positions where
every class of the group carries the same character. -/
def commonPre (cls : List Str) : Str :=
  match cls with
  | [] => []
  | c :: rest => rest.foldl lcp2 c

/-- The common-suffix loop of `create_dynamic_pattern`
(src/text_processor.rs lines 163-175), computed as the reversed common
starting run of the reversed names. -/
def commonSuf (cls : List Str) : Str :=
  (commonPre (cls.map List.reverse)).reverse

/-- `TextProcessor::create_dynamic_pattern` (src/text_processor.rs lines
148-194): a pattern when the common literal part at the front has at least
two characters; its display form joins the two literal parts with a star.
The Rust code indexes `classes[0]`, so the empty group (which no caller
produces) yields nothing here. -/
def create_dynamic_pattern (classes : List Str) : Option DynamicPattern :=
  match classes with
  | [] => none
  | _ :: _ =>
    let p := commonPre classes
    let s := commonSuf classes
    if 2 ≤ p.length then
      some { pre := p, suf := s, patternStr := p ++ '*' :: s,
             matching_classes := classes }
    else none

/-- The body of `extract_pattern_key` for one separator character
(src/text_processor.rs lines 123-141): the piece up to and including the
first occurrence, extended by the piece from the last occurrence when the
separator occurs more than once at a distinct position. -/
def extract_key_with (name : Str) (sep : Char) : Option Str :=
  match name.findIdx? (· == sep) with
  | none => none
  | some i =>
    let pre := name.take (i + 1)
    if 1 < name.countP (· == sep) then
      match lastIdxOfChar name sep with
      | some j => if j ≠ i then some (pre ++ name.drop j) else some pre
      | none => some pre
    else some pre

/-- `TextProcessor::extract_pattern_key` (src/text_processor.rs lines
119-145): the loop tries the separators in the fixed order dash first,
then underscore. -/
def extract_pattern_key (name : Str) : Option Str :=
  match extract_key_with name '-' with
  | some k => some k
  | none => extract_key_with name '_'

/-- Appending a value to the bucket of key `k`, creating the bucket at the
end when the key is new: the association-list determinization of Rust
`HashMap::entry(k).or_default().push(v)`. -/
def insertEntry {α : Type} (m : List (Str × List α)) (k : Str) (v : α) :
    List (Str × List α) :=
  match m with
  | [] => [(k, [v])]
  | e :: rest =>
    if e.1 = k then (e.1, e.2 ++ [v]) :: rest else e :: insertEntry rest k v

/-- The bucket of key `k`, empty when the key is absent. -/
def lookupEntry {α : Type} (m : List (Str × List α)) (k : Str) : List α :=
  match m with
  | [] => []
  | e :: rest => if e.1 = k then e.2 else lookupEntry rest k

/-- Folding a list of keyed values into buckets, in order. -/
def bucketFold {α : Type} (m : List (Str × List α)) (kvs : List (Str × α)) :
    List (Str × List α) :=
  kvs.foldl (fun acc kv => insertEntry acc kv.1 kv.2) m

/-- The grouping loop of `detect_dynamic_patterns` (src/text_processor.rs
lines 76-81): every name with a pattern key goes to that key's bucket. -/
def groupByKey (class_names : List Str) : List (Str × List Str) :=
  bucketFold []
    (class_names.filterMap fun n => (extract_pattern_key n).map fun k => (k, n))

/-- `TextProcessor::detect_dynamic_patterns` (src/text_processor.rs lines
73-94): one candidate pattern per group of at least two members. -/
def detect_dynamic_patterns (class_names : List Str) : List DynamicPattern :=
  (groupByKey class_names).flatMap fun g =>
    if 2 ≤ g.2.length then (create_dynamic_pattern g.2).toList else []

/-- `UnusedClass` (src/unused_detector.rs lines 19-23); `cls` embeds the
Rust field named class. -/
structure UnusedClass where
  cls : CssClass
  is_unused : Bool
deriving DecidableEq

/-- The `by_file` map of the report, as an insertion-ordered association
list from rendered file path to that file's `UnusedClass` bucket. -/
abbrev ByFile := List (Str × List UnusedClass)

/-- `UnusedReport` (src/unused_detector.rs lines 25-31). -/
structure UnusedReport where
  total_classes : Nat
  unused_classes : List CssClass
  used_classes : List CssClass
  by_file : ByFile
deriving DecidableEq

/-- `UnusedDetector::is_class_unused_exact` (src/unused_detector.rs lines
257-263). The scanner there is built by `FileScanner::new()` with no
configuration, so the scan runs with the default `css`/`scss` bucketing
whatever the detector's own config says. -/
def is_class_unused_exact (c : CssClass) (files : List (FPath × Str)) : Bool :=
  (scan none c.name files).is_css_only

/-- `UnusedDetector::is_class_unused_dynamic` (src/unused_detector.rs lines
266-279), with the regex matcher `find_pattern_usage` abstracted as `fpu`:
true when some pattern covering the class name matches some file. -/
def is_class_unused_dynamic (c : CssClass) (files : List (FPath × Str))
    (patterns : List DynamicPattern) (fpu : Str → DynamicPattern → Bool) : Bool :=
  patterns.any fun pt =>
    pt.matching_classes.any (· == c.name) && files.any fun pc => fpu pc.2 pt

/-- The classes the exact-match pass of `analyze_class_usage` marks used
(src/unused_detector.rs lines 156-192): scan result not css-only. -/
def step1Used (classes : List CssClass) (files : List (FPath × Str)) :
    List CssClass :=
  classes.filter fun c => !(is_class_unused_exact c files)

/-- The classes the exact-match pass leaves potentially unused
(src/unused_detector.rs lines 156-192): scan result css-only. -/
def step1Pot (classes : List CssClass) (files : List (FPath × Str)) :
    List CssClass :=
  classes.filter fun c => is_class_unused_exact c files

/-- `UnusedDetector::analyze_class_usage` (src/unused_detector.rs lines
136-254): the exact-match pass, the dynamic-pattern pass over the
potentially unused residue (skipped when that residue or the pattern list
is empty), and the `by_file` aggregation pushing used classes first. The
result is (unused_classes, used_classes, by_file) as in the Rust return. -/
def analyze_class_usage (classes : List CssClass) (files : List (FPath × Str))
    (patterns : List DynamicPattern) (fpu : Str → DynamicPattern → Bool) :
    List CssClass × List CssClass × ByFile :=
  let used1 := step1Used classes files
  let pot := step1Pot classes files
  let step2 : List CssClass × List CssClass :=
    if !pot.isEmpty && !patterns.isEmpty then
      (pot.filter fun c => is_class_unused_dynamic c files patterns fpu,
       pot.filter fun c => !(is_class_unused_dynamic c files patterns fpu))
    else ([], pot)
  let used := used1 ++ step2.1
  let unused := step2.2
  let by_file := bucketFold []
    ((used.map fun c => (c.file, UnusedClass.mk c false)) ++
     (unused.map fun c => (c.file, UnusedClass.mk c true)))
  (unused, used, by_file)

/-- `UnusedDetector::generate_report` (src/unused_detector.rs lines 55-83)
over a given walked snapshot: split off the stylesheet subset, extract
classes from it, infer dynamic patterns from the class names, and analyze
usage against the entire snapshot. -/
def generate_report (cfg : Option Config) (snapshot : List (FPath × Str))
    (fpu : Str → DynamicPattern → Bool) : UnusedReport :=
  let classes := extract_classes (filter_css_files cfg snapshot)
  let patterns := detect_dynamic_patterns (classes.map (·.name))
  let r := analyze_class_usage classes snapshot patterns fpu
  { total_classes := classes.length
    unused_classes := r.1
    used_classes := r.2.1
    by_file := r.2.2 }

/-- One directory entry met by the walk: its path and whether it is a
regular file (`walkdir` entries under the root). -/
structure DirEntry where
  path : FPath
  is_file : Bool

/-- The closure installed by `FileWalker::with_config` (src/file_walker.rs
lines 33-65): reject a path when any component equals an excluded
directory name, then require the extension to be in the concatenation of
the include and css extension lists; paths without an extension are
rejected. -/
def file_filter_with_config (c : Config) (p : FPath) : Bool :=
  (!(p.any fun comp => c.exclude_dirs.any (· == comp))) &&
    (match pathExt p with
     | some e => (c.include_extensions ++ c.css_extensions).any (· == e)
     | none => false)

/-- `FileWalker::walk` (src/file_walker.rs lines 68-78) with a config: the
regular files of the traversal that pass the installed filter. -/
def walk (c : Config) (entries : List DirEntry) : List FPath :=
  ((entries.filter fun e => e.is_file).map fun e => e.path).filter
    (file_filter_with_config c)

/-- `FileWalker::walk_with_content` (src/file_walker.rs lines 81-92): the
sequential loop reads every walked file and silently skips the ones whose
read fails; `fs` maps a path to its text content, none when unreadable. -/
def walk_with_content (c : Config) (entries : List DirEntry)
    (fs : FPath → Option Str) : List (FPath × Str) :=
  (walk c entries).filterMap fun p => (fs p).map fun content => (p, content)

/-- `FileWalker::walk_with_content_parallel` (src/file_walker.rs lines
95-113): the worker returns `Ok(Some(pair))` or `Ok(None)` per file, the
order-preserving parallel collect gathers the options, and the final
`flatten` drops the `None`s. -/
def walk_with_content_parallel (c : Config) (entries : List DirEntry)
    (fs : FPath → Option Str) : List (FPath × Str) :=
  (((walk c entries).map fun p => (fs p).map fun content => (p, content)).reduceOption)

/-- Two class records with different (name, file) identity keys. -/
def distinctPair (a b : CssClass) : Prop :=
  ¬(a.name = b.name ∧ a.file = b.file)

/-- The members of `class_names` whose extracted pattern key is `k`. -/
def keyFilter (class_names : List Str) (k : Str) : List Str :=
  class_names.filter fun n => extract_pattern_key n == some k

/-- The grouping key exactly as claim C4 words it: the substring up to and
including the first separator character (dash or underscore, whichever
occurs first), extended by the suffix from the last separator when a
second separator occurs at a distinct later position. Written from the
claim, not from the source, to state the claim for refutation. -/
def c4ClaimKey (name : Str) : Option Str :=
  match name.findIdx? (fun c => c == '-' || c == '_') with
  | none => none
  | some i =>
    let pre := name.take (i + 1)
    match (name.reverse.findIdx? (fun c => c == '-' || c == '_')).map
        (fun r => name.length - 1 - r) with
    | some j => if j ≠ i then some (pre ++ name.drop j) else some pre
    | none => some pre

/-- The members of `class_names` whose claim-worded key is `k`. -/
def c4ClaimKeyFilter (class_names : List Str) (k : Str) : List Str :=
  class_names.filter fun n => c4ClaimKey n == some k

/-- Claim C4 as stated (the consequence its grouping rule forces): every
group of at least two names sharing the claim-worded key whose longest
common literal part at the front has at least two characters yields a
pattern with that common front part and the common end part. -/
def C4claim : Prop :=
  ∀ (class_names : List Str) (k : Str),
    2 ≤ (c4ClaimKeyFilter class_names k).length →
    2 ≤ (commonPre (c4ClaimKeyFilter class_names k)).length →
    ∃ p ∈ detect_dynamic_patterns class_names,
      p.pre = commonPre (c4ClaimKeyFilter class_names k) ∧
      p.suf = commonSuf (c4ClaimKeyFilter class_names k)

/-- Claim C3 as stated: with supplied filter rules, a class whose
exact-word occurrences are confined to files with a configured css
extension is marked unused by the exact-match pass. -/
def C3claim : Prop :=
  ∀ (cfg : Config) (snapshot : List (FPath × Str)) (c : CssClass),
    c ∈ extract_classes (filter_css_files (some cfg) snapshot) →
    (∃ pc ∈ snapshot, scanMatch c.name pc.2 = true) →
    (∀ pc ∈ snapshot, scanMatch c.name pc.2 = true →
      config_is_css_file cfg pc.1 = true) →
    c ∈ step1Pot (extract_classes (filter_css_files (some cfg) snapshot)) snapshot

theorem scanHits_mem {cfg : Option Config} {w : Str} {files : List (FPath × Str)}
    {pr : Str × Bool} :
    pr ∈ scanHits cfg w files ↔
      ∃ pc ∈ files, scanMatch w pc.2 = true ∧
        pr = (pathStr pc.1, is_css_file cfg (pathExt pc.1)) := by
  simp only [scanHits, List.mem_filterMap]
  constructor
  · rintro ⟨pc, hmem, hf⟩
    by_cases h : scanMatch w pc.2 = true
    · rw [if_pos h] at hf
      exact ⟨pc, hmem, h, (Option.some.inj hf).symm⟩
    · rw [if_neg h] at hf
      cases hf
  · rintro ⟨pc, hmem, hm, rfl⟩
    exact ⟨pc, hmem, by rw [if_pos hm]⟩

theorem mem_css_files {cfg : Option Config} {w : Str} {files : List (FPath × Str)}
    {f : Str} :
    f ∈ (scan cfg w files).css_files ↔
      ∃ pc ∈ files, scanMatch w pc.2 = true ∧
        is_css_file cfg (pathExt pc.1) = true ∧ pathStr pc.1 = f := by
  show f ∈ ((scanHits cfg w files).filter (fun r => r.2)).map (·.1) ↔ _
  simp only [List.mem_map, List.mem_filter]
  constructor
  · rintro ⟨r, ⟨hr, hcss⟩, hf⟩
    rcases scanHits_mem.mp hr with ⟨pc, hmem, hm, rfl⟩
    exact ⟨pc, hmem, hm, hcss, hf⟩
  · rintro ⟨pc, hmem, hm, hcss, hf⟩
    exact ⟨(pathStr pc.1, is_css_file cfg (pathExt pc.1)),
      ⟨scanHits_mem.mpr ⟨pc, hmem, hm, rfl⟩, hcss⟩, hf⟩

theorem mem_other_files {cfg : Option Config} {w : Str} {files : List (FPath × Str)}
    {f : Str} :
    f ∈ (scan cfg w files).other_files ↔
      ∃ pc ∈ files, scanMatch w pc.2 = true ∧
        is_css_file cfg (pathExt pc.1) = false ∧ pathStr pc.1 = f := by
  show f ∈ ((scanHits cfg w files).filter (fun r => !r.2)).map (·.1) ↔ _
  simp only [List.mem_map, List.mem_filter, Bool.not_eq_true']
  constructor
  · rintro ⟨r, ⟨hr, hcss⟩, hf⟩
    rcases scanHits_mem.mp hr with ⟨pc, hmem, hm, rfl⟩
    exact ⟨pc, hmem, hm, hcss, hf⟩
  · rintro ⟨pc, hmem, hm, hcss, hf⟩
    exact ⟨(pathStr pc.1, is_css_file cfg (pathExt pc.1)),
      ⟨scanHits_mem.mpr ⟨pc, hmem, hm, rfl⟩, hcss⟩, hf⟩

theorem scan_is_css_only_def (cfg : Option Config) (w : Str)
    (files : List (FPath × Str)) :
    (scan cfg w files).is_css_only =
      (!(scan cfg w files).css_files.isEmpty && (scan cfg w files).other_files.isEmpty) :=
  rfl

theorem other_files_nil_iff {cfg : Option Config} {w : Str}
    {files : List (FPath × Str)} :
    (scan cfg w files).other_files = [] ↔
      ∀ pc ∈ files, scanMatch w pc.2 = true → is_css_file cfg (pathExt pc.1) = true := by
  rw [List.eq_nil_iff_forall_not_mem]
  constructor
  · intro h pc hmem hm
    by_contra hcss
    exact h (pathStr pc.1) (mem_other_files.mpr
      ⟨pc, hmem, hm, by simpa using hcss, rfl⟩)
  · intro h f hf
    rcases mem_other_files.mp hf with ⟨pc, hmem, hm, hcss, _⟩
    rw [h pc hmem hm] at hcss
    cases hcss

theorem css_files_exists_iff {cfg : Option Config} {w : Str}
    {files : List (FPath × Str)} :
    (∃ f, f ∈ (scan cfg w files).css_files) ↔
      ∃ pc ∈ files, scanMatch w pc.2 = true ∧ is_css_file cfg (pathExt pc.1) = true := by
  constructor
  · rintro ⟨f, hf⟩
    rcases mem_css_files.mp hf with ⟨pc, hmem, hm, hcss, _⟩
    exact ⟨pc, hmem, hm, hcss⟩
  · rintro ⟨pc, hmem, hm, hcss⟩
    exact ⟨pathStr pc.1, mem_css_files.mpr ⟨pc, hmem, hm, hcss, rfl⟩⟩

theorem is_css_only_true_iff {cfg : Option Config} {w : Str}
    {files : List (FPath × Str)} :
    (scan cfg w files).is_css_only = true ↔
      (∃ pc ∈ files, scanMatch w pc.2 = true ∧ is_css_file cfg (pathExt pc.1) = true) ∧
      (∀ pc ∈ files, scanMatch w pc.2 = true → is_css_file cfg (pathExt pc.1) = true) := by
  rw [scan_is_css_only_def, Bool.and_eq_true, Bool.not_eq_true',
    ← @css_files_exists_iff cfg w files, ← @other_files_nil_iff cfg w files]
  rw [List.isEmpty_eq_false_iff_exists_mem, List.isEmpty_iff]

theorem scan_no_match {cfg : Option Config} {w : Str} {files : List (FPath × Str)}
    (h : ∀ pc ∈ files, scanMatch w pc.2 = false) :
    scan cfg w files = { css_files := [], other_files := [], is_css_only := false } := by
  have hhits : scanHits cfg w files = [] := by
    rw [scanHits, List.filterMap_eq_nil_iff]
    intro pc hmem
    rw [if_neg]
    simp [h pc hmem]
  show process_scan_results (scanHits cfg w files) = _
  rw [hhits]
  rfl

theorem step1Pot_of_confined {classes : List CssClass} {files : List (FPath × Str)}
    {c : CssClass} (hc : c ∈ classes)
    (hex : ∃ pc ∈ files, scanMatch c.name pc.2 = true)
    (hall : ∀ pc ∈ files, scanMatch c.name pc.2 = true →
      is_css_file none (pathExt pc.1) = true) :
    c ∈ step1Pot classes files := by
  have hcssonly : (scan none c.name files).is_css_only = true := by
    rcases hex with ⟨pc, hmem, hm⟩
    exact is_css_only_true_iff.mpr ⟨⟨pc, hmem, hm, hall pc hmem hm⟩, hall⟩
  rw [step1Pot]
  exact List.mem_filter.mpr ⟨hc, by simpa [is_class_unused_exact] using hcssonly⟩

theorem step1Used_of_noncss_hit {classes : List CssClass} {files : List (FPath × Str)}
    {c : CssClass} (hc : c ∈ classes)
    (hex : ∃ pc ∈ files, scanMatch c.name pc.2 = true ∧
      is_css_file none (pathExt pc.1) = false) :
    c ∈ step1Used classes files := by
  have hnot : (scan none c.name files).is_css_only = false := by
    rcases hex with ⟨pc, hmem, hm, hcss⟩
    by_contra hx
    have htrue : (scan none c.name files).is_css_only = true := by
      cases hv : (scan none c.name files).is_css_only
      · exact absurd hv hx
      · rfl
    have := (is_css_only_true_iff.mp htrue).2 pc hmem hm
    rw [this] at hcss
    cases hcss
  rw [step1Used]
  exact List.mem_filter.mpr ⟨hc, by simp [is_class_unused_exact, hnot]⟩

theorem analyze_used_of_step1 {classes : List CssClass} {files : List (FPath × Str)}
    {patterns : List DynamicPattern} {fpu : Str → DynamicPattern → Bool}
    {c : CssClass} (h : c ∈ step1Used classes files) :
    c ∈ (analyze_class_usage classes files patterns fpu).2.1 :=
  List.mem_append_left _ h

/-- C5: `find_exact_words` holds exactly when one token of the split on
non-identifier characters equals the target word; with the three
word-boundary examples the specification fixes. -/
theorem c5_find_exact_words_spec :
    (∀ (content w : Str), find_exact_words content w = true ↔ w ∈ splitNonIdent content) ∧
    find_exact_words "btn-primary button".toList "btn".toList = false ∧
    find_exact_words "btn primary".toList "btn".toList = true ∧
    find_exact_words "my-btn-class".toList "btn".toList = false := by
  refine ⟨fun content w => ?_, by decide, by decide, by decide⟩
  rw [find_exact_words, List.any_eq_true]
  constructor
  · rintro ⟨x, hx, hbeq⟩
    rw [beq_iff_eq] at hbeq
    rwa [hbeq] at hx
  · intro hw
    exact ⟨w, hw, beq_self_eq_true w⟩

/-- C6: `scan` counts a file exactly when the per-file rule matches its
content: plain substring containment when the target word has a character
outside the identifier alphabet, the exact-word-boundary check
otherwise. -/
theorem c6_scan_match_rule :
    ∀ (cfg : Option Config) (w : Str) (files : List (FPath × Str)) (f : Str),
      (f ∈ (scan cfg w files).css_files ∨ f ∈ (scan cfg w files).other_files) ↔
        ∃ pc ∈ files, pathStr pc.1 = f ∧
          (if contains_special_chars w then containsSub pc.2 w
           else find_exact_words pc.2 w) = true := by
  intro cfg w files f
  rw [mem_css_files, mem_other_files]
  constructor
  · rintro (⟨pc, hmem, hm, _, hf⟩ | ⟨pc, hmem, hm, _, hf⟩) <;> exact ⟨pc, hmem, hf, hm⟩
  · rintro ⟨pc, hmem, hf, hm⟩
    cases hcss : is_css_file cfg (pathExt pc.1)
    · exact Or.inr ⟨pc, hmem, hm, hcss, hf⟩
    · exact Or.inl ⟨pc, hmem, hm, hcss, hf⟩

/-- C10: a word the per-file rule matches in no file of the snapshot
produces the scan result with both buckets empty and `is_css_only` false;
consequently a class whose name occurs nowhere is classified used by the
exact-match pass and stays in the used list of `analyze_class_usage`. -/
theorem c10_absent_word_counts_used :
    ∀ (cfg : Option Config) (w : Str) (files : List (FPath × Str))
      (classes : List CssClass) (patterns : List DynamicPattern)
      (fpu : Str → DynamicPattern → Bool) (c : CssClass),
      ((∀ pc ∈ files, scanMatch w pc.2 = false) →
        scan cfg w files = { css_files := [], other_files := [], is_css_only := false }) ∧
      (c ∈ classes → (∀ pc ∈ files, scanMatch c.name pc.2 = false) →
        c ∈ (analyze_class_usage classes files patterns fpu).2.1) := by
  intro cfg w files classes patterns fpu c
  refine ⟨scan_no_match, fun hc hnone => ?_⟩
  have hstep1 : c ∈ step1Used classes files := by
    rw [step1Used]
    refine List.mem_filter.mpr ⟨hc, ?_⟩
    have : is_class_unused_exact c files = false := by
      rw [is_class_unused_exact, scan_no_match hnone]
    simp [this]
  exact analyze_used_of_step1 hstep1

/-- C1: in the exact-match pass of the detector, a class of the extracted
list is classified used exactly when scanning its name over the whole
snapshot is not css-only, and a class whose exact-word occurrences are
confined to stylesheet files (with at least one occurrence) is left in the
potentially-unused list. -/
theorem c1_exact_pass_used_iff :
    ∀ (classes : List CssClass) (files : List (FPath × Str)) (c : CssClass),
      c ∈ classes →
      (c ∈ step1Used classes files ↔ (scan none c.name files).is_css_only = false) ∧
      ((∃ pc ∈ files, scanMatch c.name pc.2 = true) →
       (∀ pc ∈ files, scanMatch c.name pc.2 = true →
         is_css_file none (pathExt pc.1) = true) →
       c ∈ step1Pot classes files) := by
  intro classes files c hc
  refine ⟨?_, fun hex hall => step1Pot_of_confined hc hex hall⟩
  rw [step1Used, List.mem_filter]
  simp [hc, is_class_unused_exact]

/-- Witness for C1 at a one-class, one-stylesheet snapshot: the class
occurs only in the css file, so the pass leaves it potentially unused, and
the used-membership equivalence holds at the same input. -/
theorem c1_exact_pass_used_iff_witness :
    (CssClass.mk "btn".toList "s.css".toList 1 ∈
      step1Pot [CssClass.mk "btn".toList "s.css".toList 1]
        [(["s.css".toList], ".btn x".toList)]) ∧
    ((CssClass.mk "btn".toList "s.css".toList 1 ∈
      step1Used [CssClass.mk "btn".toList "s.css".toList 1]
        [(["s.css".toList], ".btn x".toList)]) ↔
      (scan none "btn".toList [(["s.css".toList], ".btn x".toList)]).is_css_only = false) :=
  ⟨(c1_exact_pass_used_iff [CssClass.mk "btn".toList "s.css".toList 1]
      [(["s.css".toList], ".btn x".toList)]
      (CssClass.mk "btn".toList "s.css".toList 1) (by decide)).2
      (by decide) (by decide),
   (c1_exact_pass_used_iff [CssClass.mk "btn".toList "s.css".toList 1]
      [(["s.css".toList], ".btn x".toList)]
      (CssClass.mk "btn".toList "s.css".toList 1) (by decide)).1⟩

/-- C3 fails on the code: with css extension list `[sass]`, the class
`foo-bar` declared only in `style.sass` is confined to configured-css
files, yet the exact-match pass marks it used, because
`is_class_unused_exact` builds its scanner without the configuration and
so buckets `style.sass` as a non-css file. -/
theorem c3_counterexample : C3claim = False :=
  eq_false fun h =>
    absurd
      (h { exclude_dirs := [], include_extensions := ["html".toList],
           css_extensions := ["sass".toList] }
        [(["style.sass".toList], ".foo-bar x".toList)]
        (CssClass.mk "foo-bar".toList "style.sass".toList 1)
        (by decide) (by decide) (by decide))
      (by decide)

/-- C3 amended: the exact-match pass constructs its scanner without the
supplied filter rules, so it buckets files by the default css/scss
extensions regardless of the configuration: a class whose occurrences are
confined to css/scss files is left potentially unused, while a class with
an occurrence in any non-css/scss file (even one whose extension is a
configured custom css extension) is marked used. -/
theorem c3_exact_pass_default_bucketing :
    ∀ (classes : List CssClass) (files : List (FPath × Str)) (c : CssClass),
      c ∈ classes →
      ((∃ pc ∈ files, scanMatch c.name pc.2 = true) →
       (∀ pc ∈ files, scanMatch c.name pc.2 = true →
         is_css_file none (pathExt pc.1) = true) →
       c ∈ step1Pot classes files) ∧
      ((∃ pc ∈ files, scanMatch c.name pc.2 = true ∧
         is_css_file none (pathExt pc.1) = false) →
       c ∈ step1Used classes files) :=
  fun _ _ _ hc =>
    ⟨fun hex hall => step1Pot_of_confined hc hex hall,
     fun hex => step1Used_of_noncss_hit hc hex⟩

/-- Witness for the amended C3, at the counterexample input (class in a
`.sass` file only, marked used) and at a css-confined input (class in a
`.css` file only, left potentially unused). -/
theorem c3_exact_pass_default_bucketing_witness :
    (CssClass.mk "foo-bar".toList "style.sass".toList 1 ∈
      step1Used [CssClass.mk "foo-bar".toList "style.sass".toList 1]
        [(["style.sass".toList], ".foo-bar x".toList)]) ∧
    (CssClass.mk "btn".toList "s.css".toList 1 ∈
      step1Pot [CssClass.mk "btn".toList "s.css".toList 1]
        [(["s.css".toList], ".btn x".toList)]) :=
  ⟨(c3_exact_pass_default_bucketing
      [CssClass.mk "foo-bar".toList "style.sass".toList 1]
      [(["style.sass".toList], ".foo-bar x".toList)]
      (CssClass.mk "foo-bar".toList "style.sass".toList 1) (by decide)).2
      (by decide),
   (c3_exact_pass_default_bucketing
      [CssClass.mk "btn".toList "s.css".toList 1]
      [(["s.css".toList], ".btn x".toList)]
      (CssClass.mk "btn".toList "s.css".toList 1) (by decide)).1
      (by decide) (by decide)⟩

theorem file_filter_with_config_iff {c : Config} {p : FPath} :
    file_filter_with_config c p = true ↔
      (∀ comp ∈ p, comp ∉ c.exclude_dirs) ∧
      (∃ ext, pathExt p = some ext ∧
        (ext ∈ c.include_extensions ∨ ext ∈ c.css_extensions)) := by
  rw [file_filter_with_config]
  cases hpe : pathExt p with
  | none => simp [List.any_beq']
  | some e =>
    rw [Bool.and_eq_true, Bool.not_eq_true']
    simp [List.any_beq', List.mem_append]

/-- C8: with supplied filter rules, the walk yields a path exactly when it
is a regular file of the traversal, no component equals an excluded
directory name, and its extension is in the union of the include and css
extension lists; extensionless files are excluded. -/
theorem c8_walk_included_iff :
    ∀ (c : Config) (entries : List DirEntry) (p : FPath),
      p ∈ walk c entries ↔
        ((∃ e ∈ entries, e.is_file = true ∧ e.path = p) ∧
         (∀ comp ∈ p, comp ∉ c.exclude_dirs) ∧
         (∃ ext, pathExt p = some ext ∧
           (ext ∈ c.include_extensions ∨ ext ∈ c.css_extensions))) := by
  intro c entries p
  rw [walk, List.mem_filter]
  constructor
  · rintro ⟨hmem, hfilt⟩
    rw [List.mem_map] at hmem
    obtain ⟨e, he, rfl⟩ := hmem
    rw [List.mem_filter] at he
    exact ⟨⟨e, he.1, he.2, rfl⟩, (file_filter_with_config_iff.mp hfilt).1,
      (file_filter_with_config_iff.mp hfilt).2⟩
  · rintro ⟨⟨e, he, hef, rfl⟩, hexc, hext⟩
    refine ⟨List.mem_map.mpr ⟨e, List.mem_filter.mpr ⟨he, hef⟩, rfl⟩, ?_⟩
    exact file_filter_with_config_iff.mpr ⟨hexc, hext⟩

theorem reduceOption_map_eq_filterMap {α β : Type} (f : α → Option β) (l : List α) :
    (l.map f).reduceOption = l.filterMap f := by
  show (l.map f).filterMap id = l.filterMap f
  rw [List.filterMap_map]
  rfl

/-- C9: over the same walked file list and file-system contents, the
parallel content loader returns exactly the same pairs as the sequential
one, and a file whose read fails appears in neither result. -/
theorem c9_parallel_matches_sequential :
    ∀ (c : Config) (entries : List DirEntry) (fs : FPath → Option Str),
      (∀ pr : FPath × Str,
        pr ∈ walk_with_content_parallel c entries fs ↔
          pr ∈ walk_with_content c entries fs) ∧
      (∀ p : FPath, fs p = none → ∀ content : Str,
        ¬(p, content) ∈ walk_with_content_parallel c entries fs ∧
        ¬(p, content) ∈ walk_with_content c entries fs) := by
  intro c entries fs
  have heq : walk_with_content_parallel c entries fs = walk_with_content c entries fs := by
    rw [walk_with_content_parallel, walk_with_content]
    exact reduceOption_map_eq_filterMap _ _
  refine ⟨fun pr => by rw [heq], fun p hp content => ?_⟩
  have hseq : ¬(p, content) ∈ walk_with_content c entries fs := by
    intro hmem
    rw [walk_with_content, List.mem_filterMap] at hmem
    obtain ⟨q, _, hfq⟩ := hmem
    cases hfsq : fs q with
    | none => rw [hfsq] at hfq; cases hfq
    | some ct =>
      rw [hfsq] at hfq
      have hpair : (q, ct) = (p, content) := Option.some.inj hfq
      cases hpair
      rw [hfsq] at hp
      cases hp
  exact ⟨by rw [heq]; exact hseq, hseq⟩

theorem dedupGo_not_seen :
    ∀ (l : List CssClass) (seen : List (Str × Str)) (c : CssClass),
      c ∈ dedupGo seen l → (c.name, c.file) ∉ seen := by
  intro l
  induction l with
  | nil => intro seen c hc; cases hc
  | cons d rest ih =>
    intro seen c hc
    by_cases h : (d.name, d.file) ∈ seen
    · rw [dedupGo, if_pos h] at hc
      exact ih seen c hc
    · rw [dedupGo, if_neg h] at hc
      rcases List.mem_cons.mp hc with rfl | htail
      · exact h
      · have := ih _ c htail
        exact fun hmem => this (List.mem_cons_of_mem _ hmem)

theorem dedupGo_pairwise :
    ∀ (l : List CssClass) (seen : List (Str × Str)),
      (dedupGo seen l).Pairwise distinctPair := by
  intro l
  induction l with
  | nil => intro seen; exact List.Pairwise.nil
  | cons d rest ih =>
    intro seen
    by_cases h : (d.name, d.file) ∈ seen
    · rw [dedupGo, if_pos h]
      exact ih seen
    · rw [dedupGo, if_neg h]
      refine List.Pairwise.cons (fun b hb => ?_) (ih _)
      have hnot := dedupGo_not_seen rest _ b hb
      intro ⟨hn, hf⟩
      exact hnot (by rw [← hn, ← hf]; exact List.mem_cons_self _ _)

theorem dedupGo_subset :
    ∀ (l : List CssClass) (seen : List (Str × Str)) (c : CssClass),
      c ∈ dedupGo seen l → c ∈ l := by
  intro l
  induction l with
  | nil => intro seen c hc; cases hc
  | cons d rest ih =>
    intro seen c hc
    by_cases h : (d.name, d.file) ∈ seen
    · rw [dedupGo, if_pos h] at hc
      exact List.mem_cons_of_mem _ (ih seen c hc)
    · rw [dedupGo, if_neg h] at hc
      rcases List.mem_cons.mp hc with rfl | htail
      · exact List.mem_cons_self _ _
      · exact List.mem_cons_of_mem _ (ih _ c htail)

theorem dedupGo_find :
    ∀ (l : List CssClass) (seen : List (Str × Str)) (c : CssClass),
      c ∈ dedupGo seen l →
      l.find? (fun d => d.name == c.name && d.file == c.file) = some c := by
  intro l
  induction l with
  | nil => intro seen c hc; cases hc
  | cons d rest ih =>
    intro seen c hc
    by_cases h : (d.name, d.file) ∈ seen
    · rw [dedupGo, if_pos h] at hc
      have hcpair := dedupGo_not_seen rest seen c hc
      have hne : (d.name == c.name && d.file == c.file) = false := by
        by_contra hx
        have hand : (d.name == c.name && d.file == c.file) = true := by
          cases hv : (d.name == c.name && d.file == c.file)
          · exact absurd hv hx
          · rfl
        rw [Bool.and_eq_true, beq_iff_eq, beq_iff_eq] at hand
        exact hcpair (by rw [← hand.1, ← hand.2]; exact h)
      rw [List.find?_cons_of_neg _ (by simp [hne]), ih seen c hc]
    · rw [dedupGo, if_neg h] at hc
      rcases List.mem_cons.mp hc with rfl | htail
      · exact List.find?_cons_of_pos _ (by simp)
      · have hcpair := dedupGo_not_seen rest _ c htail
        have hne : (d.name == c.name && d.file == c.file) = false := by
          by_contra hx
          have hand : (d.name == c.name && d.file == c.file) = true := by
            cases hv : (d.name == c.name && d.file == c.file)
            · exact absurd hv hx
            · rfl
          rw [Bool.and_eq_true, beq_iff_eq, beq_iff_eq] at hand
          exact hcpair (by rw [← hand.1, ← hand.2]; exact List.mem_cons_self _ _)
        rw [List.find?_cons_of_neg _ (by simp [hne]), ih _ c htail]

theorem rawClasses_valid {files : List (FPath × Str)} {c : CssClass}
    (hc : c ∈ rawClasses files) : is_valid_class_name c.name = true := by
  rw [rawClasses, List.mem_flatMap] at hc
  obtain ⟨pc, _, hcf⟩ := hc
  rw [classesOfFile, List.mem_flatMap] at hcf
  obtain ⟨il, _, hil⟩ := hcf
  by_cases hig : is_ignored_line il.2 = true
  · rw [if_pos hig] at hil
    cases hil
  · rw [if_neg hig, List.mem_filterMap] at hil
    obtain ⟨tok, _, htok⟩ := hil
    by_cases hval : is_valid_class_name tok = true
    · rw [if_pos hval] at htok
      cases Option.some.inj htok
      exact hval
    · rw [if_neg hval] at htok
      cases htok

/-- C7: extraction deduplicates by the (name, file) pair, the record kept
for a pair is the first raw occurrence (so it carries the first-seen
line), every kept name is valid (length at least two, not all digits),
and extraction is deterministic on identical input. -/
theorem c7_extraction_dedup_valid :
    ∀ files : List (FPath × Str),
      (extract_classes files).Pairwise distinctPair ∧
      (∀ c ∈ extract_classes files,
        (rawClasses files).find? (fun d => d.name == c.name && d.file == c.file) =
          some c) ∧
      (∀ c ∈ extract_classes files,
        2 ≤ c.name.length ∧ c.name.all (·.isDigit) = false) ∧
      extract_classes files = extract_classes files := by
  intro files
  refine ⟨dedupGo_pairwise _ _, fun c hc => dedupGo_find _ _ c hc, fun c hc => ?_, rfl⟩
  have hval := rawClasses_valid (dedupGo_subset _ _ c hc)
  rw [is_valid_class_name, Bool.and_eq_true, Bool.not_eq_true'] at hval
  exact ⟨of_decide_eq_true hval.1, hval.2⟩

theorem lookupEntry_insertEntry {α : Type} (m : List (Str × List α)) (k : Str)
    (v : α) (k2 : Str) :
    lookupEntry (insertEntry m k v) k2 =
      if k2 = k then lookupEntry m k2 ++ [v] else lookupEntry m k2 := by
  induction m with
  | nil =>
    by_cases h : k2 = k
    · subst h
      simp [insertEntry, lookupEntry]
    · simp [insertEntry, lookupEntry, h, Ne.symm h]
  | cons e rest ih =>
    by_cases he : e.1 = k
    · rw [insertEntry, if_pos he]
      by_cases h2 : k2 = k
      · subst h2
        simp [lookupEntry, he]
      · have hne : ¬e.1 = k2 := fun hh => h2 ((hh.symm.trans he).symm ▸ rfl)
        simp [lookupEntry, hne, h2]
    · rw [insertEntry, if_neg he]
      by_cases hek2 : e.1 = k2
      · have h2 : ¬k2 = k := fun hh => he (hek2.trans hh)
        simp [lookupEntry, hek2, h2]
      · simp [lookupEntry, hek2, ih]

theorem lookupEntry_bucketFold {α : Type} (kvs : List (Str × α)) :
    ∀ (m : List (Str × List α)) (k : Str),
      lookupEntry (bucketFold m kvs) k =
        lookupEntry m k ++ (kvs.filter fun kv => kv.1 == k).map (·.2) := by
  induction kvs with
  | nil => intro m k; simp [bucketFold, lookupEntry]
  | cons kv rest ih =>
    intro m k
    show lookupEntry (bucketFold (insertEntry m kv.1 kv.2) rest) k = _
    rw [ih, lookupEntry_insertEntry]
    by_cases hk : k = kv.1
    · rw [if_pos hk, List.filter_cons_of_pos (by simp [hk.symm]), List.map_cons,
        List.append_assoc]
      rfl
    · rw [if_neg hk,
        List.filter_cons_of_neg (by simp only [beq_iff_eq]; exact fun hh => hk hh.symm)]

theorem keyed_filter_map {β : Type} (l : List CssClass) (u : CssClass → β) (k : Str) :
    ((l.map fun c => (c.file, u c)).filter fun kv => kv.1 == k).map (·.2) =
      (l.filter fun c => c.file == k).map u := by
  rw [List.filter_map, List.map_map]
  rfl

theorem countP_eqOn {α : Type} {p q : α → Bool} :
    ∀ {l : List α}, (∀ a ∈ l, p a = q a) → l.countP p = l.countP q := by
  intro l
  induction l with
  | nil => intro _; rfl
  | cons x xs ih =>
    intro h
    rw [List.countP_cons, List.countP_cons, h x (List.mem_cons_self _ _),
      ih fun a ha => h a (List.mem_cons_of_mem _ ha)]

theorem countP_pair_one {l : List CssClass} {c : CssClass}
    (hPW : l.Pairwise distinctPair) (hc : c ∈ l) :
    l.countP (fun d => d.name == c.name && d.file == c.file) = 1 := by
  induction l with
  | nil => cases hc
  | cons d rest ih =>
    rw [List.pairwise_cons] at hPW
    rcases List.mem_cons.mp hc with rfl | htail
    · rw [List.countP_cons, if_pos (by simp)]
      have hz : rest.countP (fun b => b.name == c.name && b.file == c.file) = 0 := by
        rw [List.countP_eq_zero]
        intro b hb hmatch
        rw [Bool.and_eq_true, beq_iff_eq, beq_iff_eq] at hmatch
        exact hPW.1 b hb ⟨hmatch.1.symm, hmatch.2.symm⟩
      rw [hz]
    · rw [List.countP_cons, if_neg, ih hPW.2 htail]
      intro hmatch
      rw [Bool.and_eq_true, beq_iff_eq, beq_iff_eq] at hmatch
      exact hPW.1 c htail ⟨hmatch.1, hmatch.2⟩

theorem countP_zero_of_pair_free {l : List CssClass} {c : CssClass}
    (h : ∀ d ∈ l, ¬(d.name = c.name ∧ d.file = c.file)) :
    l.countP (fun d => d.name == c.name && d.file == c.file) = 0 :=
  List.countP_eq_zero.mpr fun d hd hmatch => by
    rw [Bool.and_eq_true, beq_iff_eq, beq_iff_eq] at hmatch
    exact h d hd hmatch

theorem pair_eq_of_mem {l : List CssClass} {a b : CssClass}
    (hPW : l.Pairwise distinctPair) (ha : a ∈ l) (hb : b ∈ l)
    (hn : a.name = b.name) (hf : a.file = b.file) : a = b := by
  by_contra hne
  have hsym : Symmetric distinctPair := by
    intro x y hxy
    exact fun hyx => hxy ⟨hyx.1.symm, hyx.2.symm⟩
  exact hPW.forall hsym ha hb hne ⟨hn, hf⟩

theorem segment_countP (l : List CssClass) (b : Bool) (c : CssClass) :
    ((l.filter fun d => d.file == c.file).map fun d => UnusedClass.mk d b).countP
        (fun u => u.cls.name == c.name && u.cls.file == c.file) =
      l.countP (fun d => d.name == c.name && d.file == c.file) := by
  rw [List.countP_map, List.countP_filter]
  apply countP_eqOn
  intro a _
  show ((a.name == c.name && a.file == c.file) && (a.file == c.file)) = _
  cases h1 : a.file == c.file <;> simp [h1]

theorem segment_mem {l : List CssClass} {b : Bool} {c : CssClass} {u : UnusedClass}
    (hu : u ∈ (l.filter fun d => d.file == c.file).map fun d => UnusedClass.mk d b) :
    u.is_unused = b ∧ u.cls ∈ l := by
  rw [List.mem_map] at hu
  obtain ⟨d, hd, rfl⟩ := hu
  exact ⟨rfl, (List.mem_filter.mp hd).1⟩

theorem analyze_parts (classes : List CssClass) (files : List (FPath × Str))
    (patterns : List DynamicPattern) (fpu : Str → DynamicPattern → Bool) :
    ∃ pu un,
      analyze_class_usage classes files patterns fpu =
        (un, step1Used classes files ++ pu,
          bucketFold []
            (((step1Used classes files ++ pu).map fun c =>
                (c.file, UnusedClass.mk c false)) ++
             (un.map fun c => (c.file, UnusedClass.mk c true)))) ∧
      pu.length + un.length = (step1Pot classes files).length ∧
      pu.Sublist (step1Pot classes files) ∧
      un.Sublist (step1Pot classes files) ∧
      (∀ x, x ∈ pu → x ∈ un → False) := by
  by_cases hcond : (!(step1Pot classes files).isEmpty && !patterns.isEmpty) = true
  · refine ⟨(step1Pot classes files).filter
        (fun c => is_class_unused_dynamic c files patterns fpu),
      (step1Pot classes files).filter
        (fun c => !(is_class_unused_dynamic c files patterns fpu)),
      ?_, ?_, List.filter_sublist _, List.filter_sublist _, ?_⟩
    · simp only [analyze_class_usage, hcond, if_true]
    · exact (@List.length_eq_length_filter_add _ (step1Pot classes files)
        (fun c => is_class_unused_dynamic c files patterns fpu)).symm
    · intro x hx1 hx2
      rw [List.mem_filter] at hx1 hx2
      have h2 := hx2.2
      rw [Bool.not_eq_true', hx1.2] at h2
      cases h2
  · refine ⟨[], step1Pot classes files, ?_, by simp, List.nil_sublist _,
      List.Sublist.refl _, fun x hx => absurd hx (List.not_mem_nil x)⟩
    simp [analyze_class_usage, hcond]

theorem length_filter_not_add {α : Type} (p : α → Bool) (l : List α) :
    (l.filter fun a => !(p a)).length + (l.filter p).length = l.length := by
  induction l with
  | nil => rfl
  | cons x xs ih =>
    cases hx : p x <;> simp [List.filter_cons, hx, ← ih] <;> omega

theorem analyze_invariants (classes : List CssClass) (files : List (FPath × Str))
    (patterns : List DynamicPattern) (fpu : Str → DynamicPattern → Bool)
    (hPW : classes.Pairwise distinctPair) :
    classes.length =
      (analyze_class_usage classes files patterns fpu).1.length +
        (analyze_class_usage classes files patterns fpu).2.1.length ∧
    (∀ c ∈ (analyze_class_usage classes files patterns fpu).2.1,
      (lookupEntry (analyze_class_usage classes files patterns fpu).2.2 c.file).countP
          (fun u => u.cls.name == c.name && u.cls.file == c.file) = 1 ∧
        ∀ u ∈ lookupEntry (analyze_class_usage classes files patterns fpu).2.2 c.file,
          u.cls.name = c.name → u.cls.file = c.file → u.is_unused = false) ∧
    (∀ c ∈ (analyze_class_usage classes files patterns fpu).1,
      (lookupEntry (analyze_class_usage classes files patterns fpu).2.2 c.file).countP
          (fun u => u.cls.name == c.name && u.cls.file == c.file) = 1 ∧
        ∀ u ∈ lookupEntry (analyze_class_usage classes files patterns fpu).2.2 c.file,
          u.cls.name = c.name → u.cls.file = c.file → u.is_unused = true) := by
  obtain ⟨pu, un, heq, hlen, hpuS, hunS, hdisj⟩ :=
    analyze_parts classes files patterns fpu
  have h1eq : (analyze_class_usage classes files patterns fpu).1 = un := by rw [heq]
  have h21eq : (analyze_class_usage classes files patterns fpu).2.1 =
      step1Used classes files ++ pu := by rw [heq]
  have h22eq : (analyze_class_usage classes files patterns fpu).2.2 =
      bucketFold []
        (((step1Used classes files ++ pu).map fun c =>
            (c.file, UnusedClass.mk c false)) ++
         (un.map fun c => (c.file, UnusedClass.mk c true))) := by rw [heq]
  rw [h1eq, h21eq, h22eq]
  have hsuS : (step1Used classes files).Sublist classes := List.filter_sublist _
  have hspS : (step1Pot classes files).Sublist classes := List.filter_sublist _
  have hpuC : pu.Sublist classes := hpuS.trans hspS
  have hunC : un.Sublist classes := hunS.trans hspS
  have hPWsu := List.Pairwise.sublist hsuS hPW
  have hPWpu := List.Pairwise.sublist hpuC hPW
  have hPWun := List.Pairwise.sublist hunC hPW
  have hkey : ∀ a ∈ step1Used classes files, ∀ b ∈ step1Pot classes files,
      a = b → False := by
    intro a ha b hb heqab
    rw [step1Used, List.mem_filter] at ha
    rw [step1Pot, List.mem_filter] at hb
    have h1 := ha.2
    rw [Bool.not_eq_true', heqab, hb.2] at h1
    cases h1
  have hcrossval : ∀ a ∈ step1Used classes files, ∀ b ∈ pu, distinctPair a b := by
    intro a ha b hb hpair
    have hab : a = b :=
      pair_eq_of_mem hPW (hsuS.subset ha) (hpuC.subset hb) hpair.1 hpair.2
    exact hkey a ha b (hpuS.subset hb) hab
  have hPWused : (step1Used classes files ++ pu).Pairwise distinctPair :=
    List.pairwise_append.mpr ⟨hPWsu, hPWpu, hcrossval⟩
  have husedC : ∀ x ∈ step1Used classes files ++ pu, x ∈ classes := by
    intro x hx
    rcases List.mem_append.mp hx with h | h
    · exact hsuS.subset h
    · exact hpuC.subset h
  have hused_un_pairfree : ∀ c, c ∈ step1Used classes files ++ pu →
      ∀ d ∈ un, ¬(d.name = c.name ∧ d.file = c.file) := by
    intro c hc d hd hpair
    have hdc : d = c :=
      pair_eq_of_mem hPW (hunC.subset hd) (husedC c hc) hpair.1 hpair.2
    subst hdc
    rcases List.mem_append.mp hc with h | h
    · exact hkey d h d (hunS.subset hd) rfl
    · exact hdisj d h hd
  have hbucket : ∀ k,
      lookupEntry
          (bucketFold []
            (((step1Used classes files ++ pu).map fun c =>
                (c.file, UnusedClass.mk c false)) ++
             (un.map fun c => (c.file, UnusedClass.mk c true)))) k =
        (((step1Used classes files ++ pu).filter fun d => d.file == k).map
            fun d => UnusedClass.mk d false) ++
          ((un.filter fun d => d.file == k).map fun d => UnusedClass.mk d true) := by
    intro k
    rw [lookupEntry_bucketFold, List.filter_append, List.map_append,
      keyed_filter_map, keyed_filter_map]
    rfl
  refine ⟨?_, ?_, ?_⟩
  · rw [List.length_append]
    have h1 : (step1Used classes files).length + (step1Pot classes files).length =
        classes.length :=
      length_filter_not_add (fun c => is_class_unused_exact c files) classes
    omega
  · intro c hc
    rw [hbucket c.file]
    constructor
    · rw [List.countP_append, segment_countP, segment_countP,
        countP_pair_one hPWused hc, countP_zero_of_pair_free (hused_un_pairfree c hc)]
    · intro u hu hn hf
      rcases List.mem_append.mp hu with h | h
      · exact (segment_mem h).1
      · obtain ⟨_, hmem⟩ := segment_mem h
        exact absurd ⟨hn, hf⟩ (hused_un_pairfree c hc u.cls hmem)
  · intro c hc
    have hcU : c ∈ un := hc
    have hun_used_pairfree : ∀ d ∈ step1Used classes files ++ pu,
        ¬(d.name = c.name ∧ d.file = c.file) := by
      intro d hd hpair
      have hdc : d = c :=
        pair_eq_of_mem hPW (husedC d hd) (hunC.subset hcU) hpair.1 hpair.2
      subst hdc
      rcases List.mem_append.mp hd with h | h
      · exact hkey d h d (hunS.subset hcU) rfl
      · exact hdisj d h hcU
    rw [hbucket c.file]
    constructor
    · rw [List.countP_append, segment_countP, segment_countP,
        countP_pair_one hPWun hcU, countP_zero_of_pair_free hun_used_pairfree]
    · intro u hu hn hf
      rcases List.mem_append.mp hu with h | h
      · obtain ⟨_, hmem⟩ := segment_mem h
        exact absurd ⟨hn, hf⟩ (hun_used_pairfree u.cls hmem)
      · exact (segment_mem h).1

/-- C2: in every generated report the total equals the unused count plus
the used count, and every class of the used (resp. unused) list occurs
exactly once in the by_file bucket of its originating file, flagged not
unused (resp. unused). -/
theorem c2_report_invariants :
    ∀ (cfg : Option Config) (snapshot : List (FPath × Str))
      (fpu : Str → DynamicPattern → Bool),
      (generate_report cfg snapshot fpu).total_classes =
        (generate_report cfg snapshot fpu).unused_classes.length +
          (generate_report cfg snapshot fpu).used_classes.length ∧
      (∀ c ∈ (generate_report cfg snapshot fpu).used_classes,
        (lookupEntry (generate_report cfg snapshot fpu).by_file c.file).countP
            (fun u => u.cls.name == c.name && u.cls.file == c.file) = 1 ∧
          ∀ u ∈ lookupEntry (generate_report cfg snapshot fpu).by_file c.file,
            u.cls.name = c.name → u.cls.file = c.file → u.is_unused = false) ∧
      (∀ c ∈ (generate_report cfg snapshot fpu).unused_classes,
        (lookupEntry (generate_report cfg snapshot fpu).by_file c.file).countP
            (fun u => u.cls.name == c.name && u.cls.file == c.file) = 1 ∧
          ∀ u ∈ lookupEntry (generate_report cfg snapshot fpu).by_file c.file,
            u.cls.name = c.name → u.cls.file = c.file → u.is_unused = true) := by
  intro cfg snapshot fpu
  have hrep : generate_report cfg snapshot fpu =
      { total_classes := (extract_classes (filter_css_files cfg snapshot)).length
        unused_classes :=
          (analyze_class_usage (extract_classes (filter_css_files cfg snapshot))
            snapshot
            (detect_dynamic_patterns
              ((extract_classes (filter_css_files cfg snapshot)).map (·.name)))
            fpu).1
        used_classes :=
          (analyze_class_usage (extract_classes (filter_css_files cfg snapshot))
            snapshot
            (detect_dynamic_patterns
              ((extract_classes (filter_css_files cfg snapshot)).map (·.name)))
            fpu).2.1
        by_file :=
          (analyze_class_usage (extract_classes (filter_css_files cfg snapshot))
            snapshot
            (detect_dynamic_patterns
              ((extract_classes (filter_css_files cfg snapshot)).map (·.name)))
            fpu).2.2 } := rfl
  rw [hrep]
  exact analyze_invariants _ _ _ _ (dedupGo_pairwise _ _)

theorem mem_keys_insertEntry {α : Type} {m : List (Str × List α)} {k : Str}
    {v : α} {k2 : Str} (h : k2 ∈ (insertEntry m k v).map (·.1)) :
    k2 ∈ m.map (·.1) ∨ k2 = k := by
  induction m with
  | nil =>
    rw [insertEntry] at h
    rcases List.mem_map.mp h with ⟨e, he, hk2⟩
    rcases List.mem_singleton.mp he with rfl
    exact Or.inr hk2.symm
  | cons e rest ih =>
    by_cases he : e.1 = k
    · rw [insertEntry, if_pos he] at h
      rcases List.mem_map.mp h with ⟨d, hd, hk2⟩
      rcases List.mem_cons.mp hd with rfl | hdrest
      · exact Or.inl (List.mem_map.mpr ⟨e, List.mem_cons_self _ _, hk2⟩)
      · exact Or.inl (List.mem_map.mpr ⟨d, List.mem_cons_of_mem _ hdrest, hk2⟩)
    · rw [insertEntry, if_neg he, List.map_cons] at h
      rcases List.mem_cons.mp h with rfl | htail
      · exact Or.inl (List.mem_map.mpr ⟨e, List.mem_cons_self _ _, rfl⟩)
      · rcases ih htail with hin | hk
        · rcases List.mem_map.mp hin with ⟨d, hd, hk2⟩
          exact Or.inl (List.mem_map.mpr ⟨d, List.mem_cons_of_mem _ hd, hk2⟩)
        · exact Or.inr hk

theorem insertEntry_nodupKeys {α : Type} {m : List (Str × List α)}
    (h : (m.map (·.1)).Nodup) (k : Str) (v : α) :
    ((insertEntry m k v).map (·.1)).Nodup := by
  induction m with
  | nil => simp [insertEntry]
  | cons e rest ih =>
    rw [List.map_cons, List.nodup_cons] at h
    by_cases he : e.1 = k
    · rw [insertEntry, if_pos he, List.map_cons]
      exact List.nodup_cons.mpr ⟨h.1, h.2⟩
    · rw [insertEntry, if_neg he, List.map_cons]
      refine List.nodup_cons.mpr ⟨?_, ih h.2⟩
      intro hmem
      rcases mem_keys_insertEntry hmem with hin | hk
      · exact h.1 hin
      · exact he hk

theorem bucketFold_nodupKeys {α : Type} (kvs : List (Str × α)) :
    ∀ (m : List (Str × List α)), (m.map (·.1)).Nodup →
      ((bucketFold m kvs).map (·.1)).Nodup := by
  induction kvs with
  | nil => intro m h; exact h
  | cons kv rest ih =>
    intro m h
    exact ih (insertEntry m kv.1 kv.2) (insertEntry_nodupKeys h kv.1 kv.2)

theorem groupByKey_nodupKeys (class_names : List Str) :
    ((groupByKey class_names).map (·.1)).Nodup :=
  bucketFold_nodupKeys _ [] (by simp)

theorem lookupEntry_eq_of_mem {α : Type} :
    ∀ {m : List (Str × List α)}, (m.map (·.1)).Nodup →
      ∀ {k : Str} {g : List α}, (k, g) ∈ m → lookupEntry m k = g := by
  intro m
  induction m with
  | nil => intro _ k g hmem; cases hmem
  | cons e rest ih =>
    intro hnd k g hmem
    rw [List.map_cons, List.nodup_cons] at hnd
    rcases List.mem_cons.mp hmem with rfl | htail
    · rw [lookupEntry, if_pos rfl]
    · have hke : ¬e.1 = k := by
        intro he
        exact hnd.1 (List.mem_map.mpr ⟨(k, g), htail, he.symm⟩)
      rw [lookupEntry, if_neg hke]
      exact ih hnd.2 htail

theorem mem_of_lookupEntry_ne_nil {α : Type} :
    ∀ {m : List (Str × List α)} {k : Str}, lookupEntry m k ≠ [] →
      (k, lookupEntry m k) ∈ m := by
  intro m
  induction m with
  | nil => intro k h; exact absurd rfl h
  | cons e rest ih =>
    intro k h
    obtain ⟨k1, g1⟩ := e
    by_cases hk : k1 = k
    · subst hk
      rw [lookupEntry, if_pos rfl] at h ⊢
      exact List.mem_cons_self _ _
    · rw [lookupEntry, if_neg hk] at h ⊢
      exact List.mem_cons_of_mem _ (ih h)

theorem keyed_filterMap (class_names : List Str) (k : Str) :
    ((class_names.filterMap fun n =>
        (extract_pattern_key n).map fun k2 => (k2, n)).filter
          fun kv => kv.1 == k).map (·.2) =
      keyFilter class_names k := by
  induction class_names with
  | nil => rfl
  | cons n rest ih =>
    cases hk : extract_pattern_key n with
    | none =>
      simp only [List.filterMap_cons, hk, Option.map_none']
      rw [keyFilter, List.filter_cons]
      have c2 : (extract_pattern_key n == some k) = false := by
        rw [hk]; rfl
      rw [c2]
      simp only [Bool.false_eq_true, if_false]
      exact ih
    | some k2 =>
      simp only [List.filterMap_cons, hk, Option.map_some']
      simp only [keyFilter] at ih ⊢
      by_cases hkk : k2 = k
      · subst hkk
        have c1 : (((k2, n) : Str × Str).1 == k2) = true := by simp
        have c2 : (extract_pattern_key n == some k2) = true := by rw [hk]; simp
        simp only [List.filter_cons, c1, c2, if_true, List.map_cons]
        exact congrArg (List.cons n) ih
      · have c1 : (((k2, n) : Str × Str).1 == k) = false := by simp [hkk]
        have c2 : (extract_pattern_key n == some k) = false := by
          rw [hk]; simp [hkk]
        simp only [List.filter_cons, c1, c2, Bool.false_eq_true, if_false]
        exact ih

theorem lookupEntry_groupByKey (class_names : List Str) (k : Str) :
    lookupEntry (groupByKey class_names) k = keyFilter class_names k := by
  rw [groupByKey, lookupEntry_bucketFold, keyed_filterMap]
  rfl

theorem groupByKey_mem_eq {class_names : List Str} {e : Str × List Str}
    (h : e ∈ groupByKey class_names) : e.2 = keyFilter class_names e.1 := by
  obtain ⟨k, g⟩ := e
  have := lookupEntry_eq_of_mem (groupByKey_nodupKeys class_names) h
  rw [lookupEntry_groupByKey] at this
  exact this.symm

theorem keyFilter_mem_key {class_names : List Str} {k : Str} {n : Str}
    (h : n ∈ keyFilter class_names k) : extract_pattern_key n = some k := by
  rw [keyFilter, List.mem_filter] at h
  exact beq_iff_eq.mp h.2

theorem groupByKey_mem_of_ne_nil {class_names : List Str} {k : Str}
    (h : keyFilter class_names k ≠ []) :
    (k, keyFilter class_names k) ∈ groupByKey class_names := by
  have hl := lookupEntry_groupByKey class_names k
  rw [← hl]
  exact mem_of_lookupEntry_ne_nil (by rw [hl]; exact h)

theorem create_eq_some_iff {g : List Str} {p : DynamicPattern} :
    create_dynamic_pattern g = some p ↔
      g ≠ [] ∧ 2 ≤ (commonPre g).length ∧
        p = { pre := commonPre g, suf := commonSuf g,
              patternStr := commonPre g ++ '*' :: commonSuf g,
              matching_classes := g } := by
  cases g with
  | nil => simp [create_dynamic_pattern]
  | cons c rest =>
    rw [create_dynamic_pattern]
    by_cases hlen : 2 ≤ (commonPre (c :: rest)).length
    · rw [if_pos hlen]
      constructor
      · intro h
        exact ⟨List.cons_ne_nil c rest, hlen, (Option.some.inj h).symm⟩
      · rintro ⟨-, -, rfl⟩
        rfl
    · rw [if_neg hlen]
      constructor
      · intro h; cases h
      · rintro ⟨-, habs, -⟩
        exact absurd habs hlen

theorem detect_mem_iff {class_names : List Str} {p : DynamicPattern} :
    p ∈ detect_dynamic_patterns class_names ↔
      ∃ k, 2 ≤ (keyFilter class_names k).length ∧
        2 ≤ (commonPre (keyFilter class_names k)).length ∧
        p = { pre := commonPre (keyFilter class_names k),
              suf := commonSuf (keyFilter class_names k),
              patternStr := commonPre (keyFilter class_names k) ++ '*' ::
                commonSuf (keyFilter class_names k),
              matching_classes := keyFilter class_names k } := by
  rw [detect_dynamic_patterns, List.mem_flatMap]
  constructor
  · rintro ⟨g, hg, hp⟩
    have hgchar := groupByKey_mem_eq hg
    by_cases hlen : 2 ≤ g.2.length
    · rw [if_pos hlen] at hp
      rw [Option.mem_toList, Option.mem_def] at hp
      rcases create_eq_some_iff.mp hp with ⟨-, hpre, rfl⟩
      rw [hgchar] at hlen hpre ⊢
      exact ⟨g.1, hlen, hpre, rfl⟩
    · rw [if_neg hlen] at hp
      cases hp
  · rintro ⟨k, hlen, hpre, rfl⟩
    have hne : keyFilter class_names k ≠ [] := by
      intro h
      rw [h] at hlen
      cases hlen
    refine ⟨(k, keyFilter class_names k), groupByKey_mem_of_ne_nil hne, ?_⟩
    rw [if_pos hlen, Option.mem_toList, Option.mem_def]
    exact create_eq_some_iff.mpr ⟨hne, hpre, rfl⟩

theorem detect_nodup_go (class_names : List Str) :
    ∀ (entries : List (Str × List Str)),
      (entries.map (·.1)).Nodup →
      (∀ e ∈ entries, e.2 = keyFilter class_names e.1) →
      (entries.flatMap fun g =>
        if 2 ≤ g.2.length then (create_dynamic_pattern g.2).toList else []).Nodup := by
  intro entries
  induction entries with
  | nil => intro _ _; exact List.Pairwise.nil
  | cons e rest ih =>
    intro hnd hchar
    rw [List.map_cons, List.nodup_cons] at hnd
    rw [List.flatMap_cons]
    refine List.Nodup.append ?_ (ih hnd.2 fun d hd => hchar d (List.mem_cons_of_mem _ hd)) ?_
    · by_cases hlen : 2 ≤ e.2.length
      · rw [if_pos hlen]
        cases hcreate : create_dynamic_pattern e.2 <;> simp [hcreate]
      · rw [if_neg hlen]
        exact List.Pairwise.nil
    · intro p hp1 hp2
      by_cases hlen : 2 ≤ e.2.length
      · rw [if_pos hlen, Option.mem_toList, Option.mem_def] at hp1
        rcases create_eq_some_iff.mp hp1 with ⟨hne, -, rfl⟩
        rw [List.mem_flatMap] at hp2
        obtain ⟨g2, hg2, hpg2⟩ := hp2
        by_cases hlen2 : 2 ≤ g2.2.length
        · rw [if_pos hlen2, Option.mem_toList, Option.mem_def] at hpg2
          rcases create_eq_some_iff.mp hpg2 with ⟨-, -, heq2⟩
          have hmc : e.2 = g2.2 := congrArg DynamicPattern.matching_classes heq2
          obtain ⟨n, hn⟩ := List.exists_mem_of_ne_nil _ hne
          have hkey1 : extract_pattern_key n = some e.1 := by
            rw [hchar e (List.mem_cons_self _ _)] at hn
            exact keyFilter_mem_key hn
          have hkey2 : extract_pattern_key n = some g2.1 := by
            have hn2 : n ∈ g2.2 := hmc ▸ hn
            rw [hchar g2 (List.mem_cons_of_mem _ hg2)] at hn2
            exact keyFilter_mem_key hn2
          have : e.1 = g2.1 := Option.some.inj (hkey1.symm.trans hkey2)
          exact hnd.1 (List.mem_map.mpr ⟨g2, hg2, this.symm⟩)
        · rw [if_neg hlen2] at hpg2
          cases hpg2
      · rw [if_neg hlen] at hp1
        cases hp1

/-- C4 fails on the code: the names `ab_cd-x` and `ab_ce-x` share the
claim-worded key (first separator is the underscore) and have the common
literal front `ab_c`, yet the code keys each name on its first dash
(dash is tried before underscore), puts them into different groups, and
emits no pattern at all. -/
theorem c4_counterexample : C4claim = False :=
  eq_false fun h => by
    obtain ⟨p, hp, -⟩ :=
      h ["ab_cd-x".toList, "ab_ce-x".toList] "ab_-x".toList (by decide) (by decide)
    have hdet : detect_dynamic_patterns ["ab_cd-x".toList, "ab_ce-x".toList] = [] := by
      decide
    rw [hdet] at hp
    cases hp

/-- C4 amended: `detect_dynamic_patterns` groups names by the key from
`extract_pattern_key`, which tries the dash before the underscore (so the
key is the piece up to and including the first dash when the name has one,
otherwise the first underscore, extended by the piece from the last
occurrence of that same separator when it repeats); it emits exactly one
pattern per key group of at least two members whose longest common literal
front part has at least two characters, carrying the group's longest
common front and end parts; all other groups yield nothing. -/
theorem c4_detect_dynamic_patterns_amended :
    ∀ class_names : List Str,
      (∀ p : DynamicPattern,
        p ∈ detect_dynamic_patterns class_names ↔
          ∃ k, 2 ≤ (keyFilter class_names k).length ∧
            2 ≤ (commonPre (keyFilter class_names k)).length ∧
            p = { pre := commonPre (keyFilter class_names k),
                  suf := commonSuf (keyFilter class_names k),
                  patternStr := commonPre (keyFilter class_names k) ++ '*' ::
                    commonSuf (keyFilter class_names k),
                  matching_classes := keyFilter class_names k }) ∧
      (detect_dynamic_patterns class_names).Nodup := by
  intro class_names
  refine ⟨fun p => detect_mem_iff, ?_⟩
  rw [detect_dynamic_patterns]
  exact detect_nodup_go class_names (groupByKey class_names)
    (groupByKey_nodupKeys class_names) (fun e he => groupByKey_mem_eq he)

theorem lcp2_prefix_left : ∀ (a b : Str), lcp2 a b <+: a := by
  intro a
  induction a with
  | nil => intro b; cases b <;> exact List.nil_prefix
  | cons x xs ih =>
    intro b
    cases b with
    | nil => exact List.nil_prefix
    | cons y ys =>
      rw [lcp2]
      by_cases h : x = y
      · rw [if_pos h, List.cons_prefix_cons]
        exact ⟨rfl, ih ys⟩
      · rw [if_neg h]
        exact List.nil_prefix

theorem lcp2_prefix_right : ∀ (a b : Str), lcp2 a b <+: b := by
  intro a
  induction a with
  | nil => intro b; cases b <;> exact List.nil_prefix
  | cons x xs ih =>
    intro b
    cases b with
    | nil => exact List.nil_prefix
    | cons y ys =>
      rw [lcp2]
      by_cases h : x = y
      · rw [if_pos h, List.cons_prefix_cons]
        exact ⟨h, ih ys⟩
      · rw [if_neg h]
        exact List.nil_prefix

theorem lcp2_longest : ∀ (p a b : Str), p <+: a → p <+: b → p <+: lcp2 a b := by
  intro p
  induction p with
  | nil => intro a b _ _; exact List.nil_prefix
  | cons c cs ih =>
    intro a b hpa hpb
    obtain ⟨ta, rfl⟩ := hpa
    obtain ⟨tb, rfl⟩ := hpb
    rw [List.cons_append, List.cons_append, lcp2, if_pos rfl, List.cons_prefix_cons]
    exact ⟨rfl, ih _ _ ⟨ta, rfl⟩ ⟨tb, rfl⟩⟩

theorem foldl_lcp2_prefix_acc : ∀ (rest : List Str) (acc : Str),
    rest.foldl lcp2 acc <+: acc := by
  intro rest
  induction rest with
  | nil => intro acc; exact List.prefix_refl _
  | cons y ys ih =>
    intro acc
    exact (ih (lcp2 acc y)).trans (lcp2_prefix_left acc y)

theorem foldl_lcp2_prefix_mem : ∀ (rest : List Str) (acc : Str),
    ∀ s ∈ rest, rest.foldl lcp2 acc <+: s := by
  intro rest
  induction rest with
  | nil => intro acc s hs; cases hs
  | cons y ys ih =>
    intro acc s hs
    rcases List.mem_cons.mp hs with rfl | htail
    · exact (foldl_lcp2_prefix_acc ys (lcp2 acc s)).trans (lcp2_prefix_right acc s)
    · exact ih (lcp2 acc y) s htail

theorem foldl_lcp2_longest : ∀ (rest : List Str) (acc p : Str),
    p <+: acc → (∀ s ∈ rest, p <+: s) → p <+: rest.foldl lcp2 acc := by
  intro rest
  induction rest with
  | nil => intro acc p hacc _; exact hacc
  | cons y ys ih =>
    intro acc p hacc h
    exact ih (lcp2 acc y) p
      (lcp2_longest p acc y hacc (h y (List.mem_cons_self _ _)))
      (fun s hs => h s (List.mem_cons_of_mem _ hs))

/-- The `commonPre` of a group is a common starting run of every member:
half of "longest common literal prefix" in the pattern claims. -/
theorem commonPre_prefix (cls : List Str) : ∀ s ∈ cls, commonPre cls <+: s := by
  cases cls with
  | nil => intro s hs; cases hs
  | cons c rest =>
    intro s hs
    rcases List.mem_cons.mp hs with rfl | htail
    · exact foldl_lcp2_prefix_acc rest s
    · exact foldl_lcp2_prefix_mem rest c s htail

/-- Any common starting run of all members extends into `commonPre`: the
other half of "longest common literal prefix". -/
theorem commonPre_longest {cls : List Str} {p : Str} (hne : cls ≠ [])
    (h : ∀ s ∈ cls, p <+: s) : p <+: commonPre cls := by
  cases cls with
  | nil => exact absurd rfl hne
  | cons c rest =>
    exact foldl_lcp2_longest rest c p (h c (List.mem_cons_self _ _))
      (fun s hs => h s (List.mem_cons_of_mem _ hs))

/-- The `commonSuf` of a group is a common ending run of every member. -/
theorem commonSuf_suffix (cls : List Str) : ∀ s ∈ cls, commonSuf cls <:+ s := by
  intro s hs
  rw [commonSuf, ← List.reverse_reverse s]
  rw [List.reverse_suffix]
  exact commonPre_prefix _ s.reverse (List.mem_map.mpr ⟨s, hs, rfl⟩)

/-- Any common ending run of all members extends into `commonSuf`. -/
theorem commonSuf_longest {cls : List Str} {p : Str} (hne : cls ≠ [])
    (h : ∀ s ∈ cls, p <:+ s) : p <:+ commonSuf cls := by
  rw [commonSuf, ← List.reverse_reverse p, List.reverse_suffix]
  refine commonPre_longest (fun hmap => hne (List.map_eq_nil_iff.mp hmap)) ?_
  intro t ht
  rcases List.mem_map.mp ht with ⟨s, hs, rfl⟩
  rw [List.reverse_prefix]
  exact h s hs
